import Mathlib

/-!
Verification of the DictDeque repository (src/src.py).

We shallowly embed the two deque implementations, the palindrome checker
built on the dict-based deque, the text normalizer `cleanse`, and the
palindrome-counting driver, and we settle the specification claims
against these embeddings.

Python conventions in the embedding:
* a Python `dict` with `int` keys is an association list `List (Int × α)`
  whose key set we reason about explicitly;
* a Python function that can either return a value, return `None`, or
  raise an exception is modelled with `PyResult`: `ok v` is a normal
  return of a value, `ok none` (at type `PyResult (Option α)`) is a
  normal return of Python `None`, and `err` is a raised exception
  (`KeyError` for a missing dict key, `IndexError` for popping an empty
  list) propagating to the caller.
-/

set_option autoImplicit false

universe u

variable {α : Type u} {β : Type u}

/-- Result of a Python call: a normal return of a value, or a raised
exception propagating to the caller. -/
inductive PyResult (α : Type u) where
  | ok : α → PyResult α
  | err : PyResult α
deriving DecidableEq

def PyResult.map (f : α → β) : PyResult α → PyResult β
  | .ok a => .ok (f a)
  | .err => .err

/-! ### The Python dict (restricted to what `DictDeque` uses) -/

/-- `d[k]` as a total function: `some v` when the key is present,
`none` when the lookup would raise `KeyError`. -/
def dlookup (m : List (Int × α)) (k : Int) : Option α :=
  match m with
  | [] => none
  | (k', v) :: rest => if k' = k then some v else dlookup rest k

/-- `d[k] = v`: replace any existing binding of `k`, else add one. -/
def dinsert (m : List (Int × α)) (k : Int) (v : α) : List (Int × α) :=
  (k, v) :: m.filter (fun p => p.1 ≠ k)

/-- `del d[k]` (on a key known present; on an absent key the caller's
`KeyError` is raised before this runs). -/
def ddel (m : List (Int × α)) (k : Int) : List (Int × α) :=
  m.filter (fun p => p.1 ≠ k)

/-! ### DictDeque (src/src.py lines 44-93) -/

structure DictDeque (α : Type u) where
  items : List (Int × α)
  high : Int
  low : Int
deriving DecidableEq

namespace DictDeque

/-- `__init__`: `self.items = {}; self.high = 1; self.low = 0`. -/
def empty : DictDeque α := { items := [], high := 1, low := 0 }

/-- `self.items[self.low] = item; self.low -= 1`. -/
def addFront (d : DictDeque α) (item : α) : DictDeque α :=
  { d with items := dinsert d.items d.low item, low := d.low - 1 }

/-- `self.items[self.high] = item; self.high += 1`. -/
def addRear (d : DictDeque α) (item : α) : DictDeque α :=
  { d with items := dinsert d.items d.high item, high := d.high + 1 }

/-- `self.items == {}`. -/
def isEmpty (d : DictDeque α) : Bool := d.items.isEmpty

/-- `len(self.items)`. -/
def size (d : DictDeque α) : Nat := d.items.length

/-- `return self.items[self.low+1]`: raises `KeyError` when absent. -/
def peekFront (d : DictDeque α) : PyResult α :=
  match dlookup d.items (d.low + 1) with
  | some v => .ok v
  | none => .err

/-- `return self.items[self.high-1]`: raises `KeyError` when absent. -/
def peekRear (d : DictDeque α) : PyResult α :=
  match dlookup d.items (d.high - 1) with
  | some v => .ok v
  | none => .err

/-- `removeFront`: when not empty, read and delete key `low+1` and
increment `low`; when empty the `if` body is skipped and the function
returns Python `None` (`ok none`) leaving the state unchanged.  A
`KeyError` on the read (`err`) would be raised before any mutation. -/
def removeFront (d : DictDeque α) : PyResult (Option α) × DictDeque α :=
  if ¬ d.isEmpty then
    match dlookup d.items (d.low + 1) with
    | some v =>
        (.ok (some v), { d with items := ddel d.items (d.low + 1), low := d.low + 1 })
    | none => (.err, d)
  else (.ok none, d)

/-- `removeRear`: symmetric to `removeFront` at key `high-1`. -/
def removeRear (d : DictDeque α) : PyResult (Option α) × DictDeque α :=
  if ¬ d.isEmpty then
    match dlookup d.items (d.high - 1) with
    | some v =>
        (.ok (some v), { d with items := ddel d.items (d.high - 1), high := d.high - 1 })
    | none => (.err, d)
  else (.ok none, d)

end DictDeque

/-! ### The baseline list-backed Deque (src/src.py lines 13-29).
The Python list's *end* is the deque's front: `addFront` is
`items.append`, `addRear` is `items.insert(0, ·)`, `removeFront` is
`items.pop()`, `removeRear` is `items.pop(0)`. -/

structure Deque (α : Type u) where
  items : List α
deriving DecidableEq

namespace Deque

def empty : Deque α := { items := [] }

/-- `self.items.append(item)`. -/
def addFront (d : Deque α) (item : α) : Deque α := { items := d.items ++ [item] }

/-- `self.items.insert(0, item)`. -/
def addRear (d : Deque α) (item : α) : Deque α := { items := item :: d.items }

/-- `return self.items.pop()`: raises `IndexError` on an empty list. -/
def removeFront (d : Deque α) : PyResult α × Deque α :=
  match d.items.getLast? with
  | some v => (.ok v, { items := d.items.dropLast })
  | none => (.err, d)

/-- `return self.items.pop(0)`: raises `IndexError` on an empty list. -/
def removeRear (d : Deque α) : PyResult α × Deque α :=
  match d.items with
  | [] => (.err, d)
  | v :: rest => (.ok v, { items := rest })

/-- `self.items == []`. -/
def isEmpty (d : Deque α) : Bool := d.items.isEmpty

/-- `len(self.items)`. -/
def size (d : Deque α) : Nat := d.items.length

end Deque

/-! ### Operation sequences over a deque -/

inductive Op (α : Type u) where
  | addF : α → Op α
  | addR : α → Op α
  | remF : Op α
  | remR : Op α
deriving DecidableEq

/-- Run a sequence of operations on a `DictDeque`, collecting the result
of every remove call in order. -/
def DictDeque.run (d : DictDeque α) : List (Op α) → DictDeque α × List (PyResult (Option α))
  | [] => (d, [])
  | op :: ops =>
    match op with
    | .addF x => (d.addFront x).run ops
    | .addR x => (d.addRear x).run ops
    | .remF =>
        let p := d.removeFront
        let q := p.2.run ops
        (q.1, p.1 :: q.2)
    | .remR =>
        let p := d.removeRear
        let q := p.2.run ops
        (q.1, p.1 :: q.2)

/-- Run a sequence of operations on the baseline `Deque`, collecting the
result of every remove call in order. -/
def Deque.run (d : Deque α) : List (Op α) → Deque α × List (PyResult α)
  | [] => (d, [])
  | op :: ops =>
    match op with
    | .addF x => (d.addFront x).run ops
    | .addR x => (d.addRear x).run ops
    | .remF =>
        let p := d.removeFront
        let q := p.2.run ops
        (q.1, p.1 :: q.2)
    | .remR =>
        let p := d.removeRear
        let q := p.2.run ops
        (q.1, p.1 :: q.2)

/-- The `DictDeque` state reached from the empty constructor by a
sequence of operations. -/
def runD (ops : List (Op α)) : DictDeque α := (DictDeque.empty.run ops).1

/-- A `DictDeque` state is reachable when some operation sequence
starting from the empty constructor produces it. -/
def DictDeque.Reachable (d : DictDeque α) : Prop := ∃ ops : List (Op α), runD ops = d

/-- The ideal sequence-of-elements semantics of one operation (front of
the deque is the head of the list). -/
def listApply (l : List α) : Op α → List α
  | .addF x => x :: l
  | .addR x => l ++ [x]
  | .remF => l.tail
  | .remR => l.dropLast

/-- An operation sequence never removes from an empty structure when
started on abstract contents `l`. -/
def noUnderflow (l : List α) : List (Op α) → Bool
  | [] => true
  | op :: ops =>
    (match op with
     | .remF => !l.isEmpty
     | .remR => !l.isEmpty
     | _ => true) && noUnderflow (listApply l op) ops

/-- The sequence consists only of `addFront`/`addRear` calls. -/
def addsOnly : List (Op α) → Bool
  | [] => true
  | .addF _ :: ops => addsOnly ops
  | .addR _ :: ops => addsOnly ops
  | _ => false

/-! ### palindromeDequeCheck (src/src.py lines 242-262).
The `while dd.size() > 1 and stillOK` loop either consumes the two
boundary elements and continues, or sets `stillOK = False` which makes
the guard fail on the next test, so the function returns `False`; the
fuel only bounds the iteration count and is chosen large enough below. -/

def palLoop : Nat → DictDeque Char → Bool
  | 0, _ => true
  | fuel + 1, d =>
    if d.size > 1 then
      if d.peekFront = d.peekRear then
        palLoop fuel ((d.removeFront.2).removeRear.2)
      else false
    else true

/-- `for c in string: dd.addRear(c)` followed by the comparison loop. -/
def palindromeDequeCheck (s : List Char) : Bool :=
  let dd := s.foldl (fun d c => d.addRear c) DictDeque.empty
  palLoop dd.size dd

/-! ### cleanse (src/src.py lines 268-285) -/

/-- Python `string.whitespace`. -/
def pyWhitespace : List Char := " \t\n\r\x0b\x0c".toList

/-- Python `string.punctuation`. -/
def pyPunctuation : List Char :=
  "!\x22#$%&\x27()*+,-./:;<=>?@[\\]^_\x60\x7b|\x7d~".toList

/-- `cleanse`: drop whitespace/punctuation characters, lowercase and
append the rest to the accumulator string. -/
def cleanse (word : List Char) : List Char :=
  word.foldl
    (fun cleaned c =>
      if c ∈ pyWhitespace ∨ c ∈ pyPunctuation then cleaned
      else cleaned ++ [c.toLower])
    []

/-! ### findPalindromes (src/src.py lines 305-327), from the token list
onward (corpus retrieval is an external collaborator). -/

/-- The dictionary update in the counting loop:
`if word not in palindromes: palindromes[word] = 1 else: palindromes[word] += 1`,
on an insertion-ordered association list as a Python dict. -/
def bump (m : List (List Char × Nat)) (w : List Char) : List (List Char × Nat) :=
  if m.all (fun p => p.1 ≠ w) then m ++ [(w, 1)]
  else m.map (fun p => if p.1 = w then (p.1, p.2 + 1) else p)

/-- The pipeline of `findPalindromes` applied to a given token list:
cleanse each token, keep those of length `> 1`, and count the ones the
deque-based palindrome check accepts. -/
def findPalindromesFrom (tokens : List (List Char)) : List (List Char × Nat) :=
  let ws := tokens.map cleanse
  let ws2 := ws.filter (fun w => w.length > 1)
  ws2.foldl (fun pals w => if palindromeDequeCheck w then bump pals w else pals) []

/-! ### Draining a deque for the cross-end symmetry check -/

/-- Repeatedly `removeFront` until empty, collecting the returned
elements (fuel-bounded; `size` many steps always suffice). -/
def drainFront : Nat → DictDeque α → List α
  | 0, _ => []
  | fuel + 1, d =>
    if d.isEmpty then []
    else
      match d.removeFront with
      | (.ok (some v), d') => v :: drainFront fuel d'
      | (_, _) => []

/-- Repeatedly `removeRear` until empty, collecting the returned
elements. -/
def drainRear : Nat → DictDeque α → List α
  | 0, _ => []
  | fuel + 1, d =>
    if d.isEmpty then []
    else
      match d.removeRear with
      | (.ok (some v), d') => v :: drainRear fuel d'
      | (_, _) => []

/-! ### Instrumented palindrome loop for the safety claim -/

/-- The palindrome loop, recording the deque size at the moment each
`removeRear` call is made (that is, after the preceding `removeFront`
of the same iteration has run). -/
def palLoopRearSizes : Nat → DictDeque Char → List Nat
  | 0, _ => []
  | fuel + 1, d =>
    if d.size > 1 then
      if d.peekFront = d.peekRear then
        let d1 := d.removeFront.2
        d1.size :: palLoopRearSizes fuel d1.removeRear.2
      else []
    else []

/-- Sizes observed at every `removeRear` call during
`palindromeDequeCheck s`. -/
def palRearSizes (s : List Char) : List Nat :=
  let dd := s.foldl (fun d c => d.addRear c) DictDeque.empty
  palLoopRearSizes dd.size dd

/-- The palindrome loop with every dict access checked: it returns
`false` as soon as a `peekFront`/`peekRear` raises, a `removeFront`/
`removeRear` returns anything but a value (i.e. hits the empty branch
or a missing key), or a `removeRear` is invoked on fewer than one
element. -/
def palLoopSafe : Nat → DictDeque Char → Bool
  | 0, _ => true
  | fuel + 1, d =>
    if d.size > 1 then
      match d.peekFront, d.peekRear with
      | .ok a, .ok b =>
        if a = b then
          match d.removeFront with
          | (.ok (some _), d1) =>
            decide (1 ≤ d1.size) &&
              (match d1.removeRear with
               | (.ok (some _), d2) => palLoopSafe fuel d2
               | (_, _) => false)
          | (_, _) => false
        else true
      | _, _ => false
    else true

/-- Safety of every deque access made by `palindromeDequeCheck s`. -/
def palSafe (s : List Char) : Bool :=
  let dd := s.foldl (fun d c => d.addRear c) DictDeque.empty
  palLoopSafe dd.size dd

/-- Abstract contents after running a whole operation sequence. -/
def listRun (l : List α) (ops : List (Op α)) : List α := ops.foldl listApply l

/-! ## Dict-map lemmas -/

theorem dlookup_cons (k₀ : Int) (v : α) (m : List (Int × α)) (k : Int) :
    dlookup ((k₀, v) :: m) k = if k₀ = k then some v else dlookup m k := rfl

theorem ddel_cons (k₀ : Int) (v : α) (m : List (Int × α)) (k : Int) :
    ddel ((k₀, v) :: m) k = if k₀ = k then ddel m k else (k₀, v) :: ddel m k := by
  by_cases h : k₀ = k <;> simp [ddel, List.filter_cons, h]

theorem dlookup_eq_none_iff {m : List (Int × α)} {k : Int} :
    dlookup m k = none ↔ ∀ p ∈ m, p.1 ≠ k := by
  induction m with
  | nil => simp [dlookup]
  | cons p rest ih =>
    obtain ⟨k', v⟩ := p
    by_cases hk : k' = k <;> simp [dlookup_cons, hk, ih]

theorem dinsert_fresh {m : List (Int × α)} {k : Int} (v : α)
    (h : dlookup m k = none) : dinsert m k v = (k, v) :: m := by
  unfold dinsert
  rw [List.filter_eq_self.mpr]
  intro p hp
  simpa using dlookup_eq_none_iff.mp h p hp

theorem ddel_of_none {m : List (Int × α)} {k : Int}
    (h : dlookup m k = none) : ddel m k = m := by
  induction m with
  | nil => rfl
  | cons p rest ih =>
    obtain ⟨k₀, v⟩ := p
    rw [dlookup_cons] at h
    by_cases hk : k₀ = k
    · simp [hk] at h
    · rw [ddel_cons, if_neg hk, ih (by simpa [hk] using h)]

theorem dlookup_ddel_self {m : List (Int × α)} {k : Int} :
    dlookup (ddel m k) k = none := by
  induction m with
  | nil => rfl
  | cons p rest ih =>
    obtain ⟨k₀, v⟩ := p
    rw [ddel_cons]
    by_cases hk : k₀ = k
    · simpa [hk] using ih
    · rw [if_neg hk, dlookup_cons, if_neg hk]
      exact ih

theorem dlookup_ddel_ne {m : List (Int × α)} {k k' : Int} (h : k' ≠ k) :
    dlookup (ddel m k) k' = dlookup m k' := by
  induction m with
  | nil => rfl
  | cons p rest ih =>
    obtain ⟨k₀, v⟩ := p
    rw [ddel_cons, dlookup_cons]
    by_cases hk : k₀ = k
    · subst hk
      rw [if_pos rfl, if_neg (fun hh : k₀ = k' => h hh.symm)]
      exact ih
    · rw [if_neg hk, dlookup_cons, ih]

theorem ddel_length {m : List (Int × α)} {k : Int} {v : α}
    (hd : (m.map Prod.fst).Nodup) (hv : dlookup m k = some v) :
    (ddel m k).length + 1 = m.length := by
  induction m with
  | nil => simp [dlookup] at hv
  | cons p rest ih =>
    obtain ⟨k₀, v₀⟩ := p
    simp only [List.map_cons, List.nodup_cons] at hd
    rw [ddel_cons]
    by_cases hk : k₀ = k
    · subst hk
      have hnone : dlookup rest k₀ = none := by
        rw [dlookup_eq_none_iff]
        intro q hq hqk
        exact hd.1 (hqk ▸ List.mem_map_of_mem Prod.fst hq)
      rw [if_pos rfl, ddel_of_none hnone]
      simp
    · rw [dlookup_cons, if_neg hk] at hv
      rw [if_neg hk]
      simpa using ih hd.2 hv

theorem ddel_nodup {m : List (Int × α)} {k : Int}
    (hd : (m.map Prod.fst).Nodup) : ((ddel m k).map Prod.fst).Nodup :=
  ((List.filter_sublist m).map Prod.fst).nodup hd

/-! ## The representation invariant of `DictDeque`

`DRep d l` says that the deque state `d` holds exactly the elements of
the front-to-rear list `l`: its keys are pairwise distinct, the cursors
bracket `l`, key `low + 1 + i` holds `l[i]`, and every key at or below
`low` (hence, given the `high` equation, every key outside
`[low+1, high-1]`) is absent. -/

structure DRep (d : DictDeque α) (l : List α) : Prop where
  nodup : (d.items.map Prod.fst).Nodup
  len : d.items.length = l.length
  hi : d.high = d.low + 1 + (l.length : Int)
  look : ∀ i : Nat, dlookup d.items (d.low + 1 + (i : Int)) = l[i]?
  lo : ∀ k : Int, k ≤ d.low → dlookup d.items k = none

theorem drep_empty : DRep (DictDeque.empty : DictDeque α) [] := by
  refine ⟨by simp [DictDeque.empty], by simp [DictDeque.empty],
    by simp [DictDeque.empty], ?_, ?_⟩
  · intro i
    simp [DictDeque.empty, dlookup]
  · intro k _
    simp [DictDeque.empty, dlookup]

/-! ## Step lemmas for the representation invariant -/

theorem drep_addFront {d : DictDeque α} {l : List α} (x : α) (h : DRep d l) :
    DRep (d.addFront x) (x :: l) := by
  have hfresh : dlookup d.items d.low = none := h.lo d.low le_rfl
  have hins : dinsert d.items d.low x = (d.low, x) :: d.items := dinsert_fresh x hfresh
  have hnotmem : d.low ∉ d.items.map Prod.fst := by
    intro hmem
    obtain ⟨p, hp, hp1⟩ := List.mem_map.mp hmem
    exact dlookup_eq_none_iff.mp hfresh p hp hp1
  refine ⟨?_, ?_, ?_, ?_, ?_⟩ <;> simp only [DictDeque.addFront]
  · rw [hins]
    exact List.Nodup.cons hnotmem h.nodup
  · rw [hins]
    simp [h.len]
  · have := h.hi
    simp only [List.length_cons] at this ⊢
    push_cast at this ⊢
    omega
  · intro i
    rw [hins]
    cases i with
    | zero =>
      have hkey : d.low - 1 + 1 + ((0 : Nat) : Int) = d.low := by push_cast; ring
      rw [hkey, dlookup_cons, if_pos rfl, List.getElem?_cons_zero]
    | succ j =>
      have hkey : d.low - 1 + 1 + ((j + 1 : Nat) : Int) = d.low + 1 + (j : Int) := by
        push_cast; ring
      rw [hkey, dlookup_cons, if_neg (by omega), h.look j, List.getElem?_cons_succ]
  · intro k hk
    rw [hins, dlookup_cons, if_neg (by omega)]
    exact h.lo k (by omega)

theorem drep_addRear {d : DictDeque α} {l : List α} (x : α) (h : DRep d l) :
    DRep (d.addRear x) (l ++ [x]) := by
  have hfresh : dlookup d.items d.high = none := by
    rw [h.hi, h.look l.length]
    exact List.getElem?_len_le le_rfl
  have hins : dinsert d.items d.high x = (d.high, x) :: d.items := dinsert_fresh x hfresh
  have hnotmem : d.high ∉ d.items.map Prod.fst := by
    intro hmem
    obtain ⟨p, hp, hp1⟩ := List.mem_map.mp hmem
    exact dlookup_eq_none_iff.mp hfresh p hp hp1
  refine ⟨?_, ?_, ?_, ?_, ?_⟩ <;> simp only [DictDeque.addRear]
  · rw [hins]
    exact List.Nodup.cons hnotmem h.nodup
  · rw [hins]
    simp [h.len]
  · have := h.hi
    simp only [List.length_append, List.length_cons, List.length_nil] at this ⊢
    push_cast at this ⊢
    omega
  · intro i
    rw [hins, dlookup_cons]
    rcases Nat.lt_trichotomy i l.length with hc | hc | hc
    · rw [if_neg (by rw [h.hi]; omega), h.look i, List.getElem?_append_left hc]
    · subst hc
      rw [if_pos h.hi, List.getElem?_concat_length]
    · rw [if_neg (by rw [h.hi]; omega), h.look i,
        List.getElem?_len_le (Nat.le_of_lt hc),
        List.getElem?_len_le
          (by simp only [List.length_append, List.length_cons, List.length_nil]; omega)]
  · intro k hk
    rw [hins, dlookup_cons, if_neg (by rw [h.hi]; omega)]
    exact h.lo k hk

theorem DRep.size_eq {d : DictDeque α} {l : List α} (h : DRep d l) :
    d.size = l.length := h.len

theorem DRep.isEmpty_eq {d : DictDeque α} {l : List α} (h : DRep d l) :
    d.isEmpty = l.isEmpty := by
  have hlen := h.len
  rw [DictDeque.isEmpty]
  cases hd : d.items with
  | nil =>
    rw [hd] at hlen
    cases l with
    | nil => rfl
    | cons a t => simp at hlen
  | cons p rest =>
    rw [hd] at hlen
    cases l with
    | nil => simp at hlen
    | cons a t => rfl

theorem DRep.isEmpty_false {d : DictDeque α} {x : α} {l : List α}
    (h : DRep d (x :: l)) : d.isEmpty = false := by
  rw [h.isEmpty_eq]
  rfl

theorem drep_peekFront {d : DictDeque α} {x : α} {l : List α} (h : DRep d (x :: l)) :
    d.peekFront = .ok x := by
  have hkey : dlookup d.items (d.low + 1) = some x := by simpa using h.look 0
  rw [DictDeque.peekFront, hkey]

theorem drep_peekRear {d : DictDeque α} {x : α} {l : List α} (h : DRep d (l ++ [x])) :
    d.peekRear = .ok x := by
  have hkey0 := h.look l.length
  rw [List.getElem?_concat_length] at hkey0
  have hk : d.high - 1 = d.low + 1 + (l.length : Int) := by
    have := h.hi
    simp only [List.length_append, List.length_cons, List.length_nil] at this
    push_cast at this ⊢
    omega
  rw [DictDeque.peekRear, hk, hkey0]

theorem drep_removeFront {d : DictDeque α} {x : α} {l : List α} (h : DRep d (x :: l)) :
    (d.removeFront).1 = .ok (some x) ∧ DRep (d.removeFront).2 l := by
  have hlen := h.len
  have hne : d.isEmpty = false := h.isEmpty_false
  have hkey : dlookup d.items (d.low + 1) = some x := by simpa using h.look 0
  have hred : d.removeFront =
      (.ok (some x), { d with items := ddel d.items (d.low + 1), low := d.low + 1 }) := by
    rw [DictDeque.removeFront, hne, hkey]
    simp
  rw [hred]
  refine ⟨rfl, ddel_nodup h.nodup, ?_, ?_, ?_, ?_⟩
  all_goals dsimp only
  · have h2 := ddel_length h.nodup hkey
    rw [hlen] at h2
    simp only [List.length_cons] at h2
    omega
  · have := h.hi
    simp only [List.length_cons] at this
    push_cast at this ⊢
    omega
  · intro i
    have hne2 : d.low + 1 + 1 + (i : Int) ≠ d.low + 1 := by omega
    rw [dlookup_ddel_ne hne2]
    have hkey2 : d.low + 1 + 1 + (i : Int) = d.low + 1 + ((i + 1 : Nat) : Int) := by
      push_cast; ring
    rw [hkey2, h.look (i + 1), List.getElem?_cons_succ]
  · intro k hk
    by_cases hkc : k = d.low + 1
    · rw [hkc]
      exact dlookup_ddel_self
    · rw [dlookup_ddel_ne hkc]
      exact h.lo k (by omega)

theorem drep_removeRear {d : DictDeque α} {x : α} {l : List α} (h : DRep d (l ++ [x])) :
    (d.removeRear).1 = .ok (some x) ∧ DRep (d.removeRear).2 l := by
  have hlen := h.len
  have hne : d.isEmpty = false := by
    rw [h.isEmpty_eq]
    cases l <;> rfl
  have hk : d.high - 1 = d.low + 1 + (l.length : Int) := by
    have := h.hi
    simp only [List.length_append, List.length_cons, List.length_nil] at this
    push_cast at this ⊢
    omega
  have hkey : dlookup d.items (d.high - 1) = some x := by
    rw [hk]
    have := h.look l.length
    rwa [List.getElem?_concat_length] at this
  have hred : d.removeRear =
      (.ok (some x), { d with items := ddel d.items (d.high - 1), high := d.high - 1 }) := by
    rw [DictDeque.removeRear, hne, hkey]
    simp
  rw [hred]
  refine ⟨rfl, ddel_nodup h.nodup, ?_, ?_, ?_, ?_⟩
  all_goals dsimp only
  · have h2 := ddel_length h.nodup hkey
    rw [hlen] at h2
    simp only [List.length_append, List.length_cons, List.length_nil] at h2
    omega
  · push_cast at hk ⊢
    omega
  · intro i
    rcases Nat.lt_trichotomy i l.length with hc | hc | hc
    · have hne2 : d.low + 1 + (i : Int) ≠ d.high - 1 := by rw [hk]; omega
      rw [dlookup_ddel_ne hne2, h.look i, List.getElem?_append_left hc]
    · subst hc
      rw [← hk, dlookup_ddel_self, List.getElem?_len_le le_rfl]
    · have hne2 : d.low + 1 + (i : Int) ≠ d.high - 1 := by rw [hk]; omega
      rw [dlookup_ddel_ne hne2, h.look i, List.getElem?_len_le (Nat.le_of_lt hc),
        List.getElem?_len_le
          (by simp only [List.length_append, List.length_cons, List.length_nil]; omega)]
  · intro k hkk
    have hne2 : k ≠ d.high - 1 := by rw [hk]; omega
    rw [dlookup_ddel_ne hne2]
    exact h.lo k hkk

theorem drep_removeFront_nil {d : DictDeque α} (h : DRep d []) :
    d.removeFront = (.ok none, d) := by
  have hempty : d.isEmpty = true := by rw [h.isEmpty_eq]; rfl
  rw [DictDeque.removeFront, hempty]
  simp

theorem drep_removeRear_nil {d : DictDeque α} (h : DRep d []) :
    d.removeRear = (.ok none, d) := by
  have hempty : d.isEmpty = true := by rw [h.isEmpty_eq]; rfl
  rw [DictDeque.removeRear, hempty]
  simp

/-! ## Every reachable state satisfies the representation invariant -/

theorem drep_run (ops : List (Op α)) :
    ∀ (d : DictDeque α) (l : List α), DRep d l → DRep (d.run ops).1 (listRun l ops) := by
  induction ops with
  | nil =>
    intro d l h
    simpa [DictDeque.run, listRun] using h
  | cons op ops ih =>
    intro d l h
    cases op with
    | addF x =>
      simpa only [DictDeque.run, listRun, List.foldl_cons, listApply] using
        ih _ _ (drep_addFront x h)
    | addR x =>
      simpa only [DictDeque.run, listRun, List.foldl_cons, listApply] using
        ih _ _ (drep_addRear x h)
    | remF =>
      simp only [DictDeque.run, listRun, List.foldl_cons, listApply]
      cases l with
      | nil =>
        rw [drep_removeFront_nil h]
        exact ih _ _ h
      | cons x t =>
        exact ih _ _ (drep_removeFront h).2
    | remR =>
      simp only [DictDeque.run, listRun, List.foldl_cons, listApply]
      rcases List.eq_nil_or_concat l with rfl | ⟨t, x, rfl⟩
      · rw [drep_removeRear_nil h]
        exact ih _ _ h
      · rw [List.concat_eq_append] at h ⊢
        rw [List.dropLast_concat]
        exact ih _ _ (drep_removeRear h).2

theorem reachable_drep {d : DictDeque α} (h : d.Reachable) : ∃ l, DRep d l := by
  obtain ⟨ops, rfl⟩ := h
  exact ⟨listRun [] ops, drep_run ops DictDeque.empty [] drep_empty⟩

/-! ## Simulation between the two deques -/

theorem deque_removeFront_eq {b : Deque α} {x : α} {t : List α}
    (hb : b.items = (x :: t).reverse) :
    b.removeFront = (.ok x, { items := t.reverse }) := by
  have h1 : b.items.getLast? = some x := by
    rw [hb, List.reverse_cons, List.getLast?_concat]
  have h2 : b.items.dropLast = t.reverse := by
    rw [hb, List.reverse_cons, List.dropLast_concat]
  rw [Deque.removeFront, h1, h2]

theorem deque_removeRear_eq {b : Deque α} {x : α} {t : List α}
    (hb : b.items = (t ++ [x]).reverse) :
    b.removeRear = (.ok x, { items := t.reverse }) := by
  have h1 : b.items = x :: t.reverse := by
    rw [hb, List.reverse_append]
    simp
  rw [Deque.removeRear, h1]

theorem run_sim (ops : List (Op α)) :
    ∀ (d : DictDeque α) (b : Deque α) (l : List α),
      DRep d l → b.items = l.reverse → noUnderflow l ops = true →
      (d.run ops).2 = ((b.run ops).2).map (PyResult.map some) ∧
      DRep (d.run ops).1 (listRun l ops) ∧
      ((b.run ops).1).items = (listRun l ops).reverse := by
  induction ops with
  | nil =>
    intro d b l hd hb _
    exact ⟨rfl, hd, hb⟩
  | cons op ops ih =>
    intro d b l hd hb hnu
    cases op with
    | addF x =>
      simp only [noUnderflow, Bool.true_and, listApply] at hnu
      have hb' : (b.addFront x).items = (x :: l).reverse := by
        rw [Deque.addFront, hb, List.reverse_cons]
      simpa only [DictDeque.run, Deque.run, listRun, List.foldl_cons, listApply] using
        ih _ _ _ (drep_addFront x hd) hb' hnu
    | addR x =>
      simp only [noUnderflow, Bool.true_and, listApply] at hnu
      have hb' : (b.addRear x).items = (l ++ [x]).reverse := by
        rw [Deque.addRear, hb, List.reverse_append]
        simp
      simpa only [DictDeque.run, Deque.run, listRun, List.foldl_cons, listApply] using
        ih _ _ _ (drep_addRear x hd) hb' hnu
    | remF =>
      cases l with
      | nil => simp [noUnderflow] at hnu
      | cons x t =>
        simp only [noUnderflow, listApply, List.isEmpty_cons, Bool.not_false,
          Bool.true_and, List.tail_cons] at hnu
        have hdict := drep_removeFront hd
        have hbase := deque_removeFront_eq (t := t) (x := x) hb
        have hrun := ih (d.removeFront).2 { items := t.reverse } t hdict.2 rfl
          (by simpa [listApply] using hnu)
        simp only [DictDeque.run, Deque.run, listRun, List.foldl_cons, listApply,
          List.tail_cons] at *
        rw [hbase]
        simp only [List.map_cons]
        refine ⟨?_, hrun.2.1, hrun.2.2⟩
        rw [hdict.1, hrun.1, PyResult.map]
    | remR =>
      rcases List.eq_nil_or_concat l with rfl | ⟨t, x, rfl⟩
      · simp [noUnderflow] at hnu
      · rw [List.concat_eq_append] at hd hb hnu ⊢
        simp only [noUnderflow, listApply, List.dropLast_concat] at hnu
        rw [Bool.and_eq_true] at hnu
        replace hnu := hnu.2
        have hdict := drep_removeRear hd
        have hbase := deque_removeRear_eq (t := t) (x := x) hb
        have hrun := ih (d.removeRear).2 { items := t.reverse } t hdict.2 rfl
          (by simpa [listApply, List.dropLast_concat] using hnu)
        simp only [DictDeque.run, Deque.run, listRun, List.foldl_cons, listApply,
          List.dropLast_concat] at *
        rw [hbase]
        simp only [List.map_cons]
        refine ⟨?_, hrun.2.1, hrun.2.2⟩
        rw [hdict.1, hrun.1, PyResult.map]

theorem noUnderflow_take (n : Nat) :
    ∀ (ops : List (Op α)) (l : List α), noUnderflow l ops = true →
      noUnderflow l (ops.take n) = true := by
  induction n with
  | zero =>
    intro ops l _
    rw [List.take_zero]
    rfl
  | succ n ih =>
    intro ops l h
    cases ops with
    | nil =>
      rw [List.take_nil]
      rfl
    | cons op ops =>
      rw [List.take_succ_cons]
      cases op with
      | addF x =>
        simp only [noUnderflow, Bool.true_and] at h ⊢
        exact ih ops _ h
      | addR x =>
        simp only [noUnderflow, Bool.true_and] at h ⊢
        exact ih ops _ h
      | remF =>
        simp only [noUnderflow, Bool.and_eq_true] at h ⊢
        exact ⟨h.1, ih ops _ h.2⟩
      | remR =>
        simp only [noUnderflow, Bool.and_eq_true] at h ⊢
        exact ⟨h.1, ih ops _ h.2⟩

/-! ## Draining lemmas -/

theorem drainFront_drep : ∀ (l : List α) (d : DictDeque α), DRep d l →
    drainFront l.length d = l := by
  intro l
  induction l with
  | nil =>
    intro d _
    rfl
  | cons x t ih =>
    intro d h
    have hne := h.isEmpty_false
    have hstep := drep_removeFront h
    rcases hrf : d.removeFront with ⟨r, d'⟩
    rw [hrf] at hstep
    obtain ⟨h1, h2⟩ := hstep
    have h1' : r = .ok (some x) := h1
    have h2' : DRep d' t := h2
    subst h1'
    simp only [List.length_cons, drainFront, hne, Bool.false_eq_true, if_false, hrf]
    rw [ih d' h2']

theorem drainRear_drep : ∀ (l : List α) (d : DictDeque α), DRep d l →
    drainRear l.length d = l.reverse := by
  intro l
  induction l using List.reverseRecOn with
  | nil =>
    intro d _
    rfl
  | append_singleton t x ih =>
    intro d h
    have hne : d.isEmpty = false := by
      rw [h.isEmpty_eq]
      cases t <;> rfl
    have hstep := drep_removeRear h
    rcases hrr : d.removeRear with ⟨r, d'⟩
    rw [hrr] at hstep
    obtain ⟨h1, h2⟩ := hstep
    have h1' : r = .ok (some x) := h1
    have h2' : DRep d' t := h2
    subst h1'
    simp only [List.length_append, List.length_cons, List.length_nil, drainRear, hne,
      Bool.false_eq_true, if_false, hrr]
    rw [ih d' h2', List.reverse_append]
    rfl

/-! ## Building a deque by rear insertions -/

theorem foldl_addRear_drep : ∀ (s l : List α) (d : DictDeque α), DRep d l →
    DRep (s.foldl (fun d c => d.addRear c) d) (l ++ s) := by
  intro s
  induction s with
  | nil =>
    intro l d h
    simpa using h
  | cons c s ih =>
    intro l d h
    simp only [List.foldl_cons]
    have := ih (l ++ [c]) _ (drep_addRear c h)
    simpa [List.append_assoc] using this

/-! ## Palindrome loop -/

theorem pal_cons_append_iff (x y : α) (m : List α) :
    x :: (m ++ [y]) = (x :: (m ++ [y])).reverse ↔ (x = y ∧ m = m.reverse) := by
  rw [List.reverse_cons, List.reverse_append, List.reverse_singleton,
    List.singleton_append, List.cons_append, List.cons.injEq]
  constructor
  · rintro ⟨h1, h2⟩
    subst h1
    rw [List.append_left_inj] at h2
    exact ⟨rfl, h2⟩
  · rintro ⟨h1, h2⟩
    subst h1
    rw [← h2]
    exact ⟨rfl, rfl⟩

theorem palLoop_drep : ∀ (n : Nat) (l : List Char) (d : DictDeque Char),
    DRep d l → l.length ≤ n → palLoop n d = decide (l = l.reverse) := by
  intro n
  induction n with
  | zero =>
    intro l d _ hle
    have : l = [] := List.length_eq_zero.mp (Nat.le_zero.mp hle)
    subst this
    simp [palLoop]
  | succ n ih =>
    intro l d h hle
    cases l with
    | nil =>
      have hsz : d.size = 0 := h.size_eq
      simp [palLoop, hsz]
    | cons x t =>
      rcases List.eq_nil_or_concat t with rfl | ⟨m, y, rfl⟩
      · have hsz : d.size = 1 := h.size_eq
        simp [palLoop, hsz]
      · rw [List.concat_eq_append] at h hle ⊢
        have hsz : d.size > 1 := by
          rw [h.size_eq]
          simp only [List.length_cons, List.length_append, List.length_nil]
          omega
        have hpf : d.peekFront = .ok x := drep_peekFront h
        have hpr : d.peekRear = .ok y := by
          rw [← List.cons_append] at h
          exact drep_peekRear h
        have hd1 := drep_removeFront h
        rw [palLoop, if_pos hsz, hpf, hpr]
        by_cases hxy : x = y
        · rw [if_pos (by rw [hxy])]
          have hd2 := drep_removeRear hd1.2
          have hlen : m.length ≤ n := by
            simp only [List.length_cons, List.length_append, List.length_nil] at hle
            omega
          rw [ih m _ hd2.2 hlen, decide_eq_decide, pal_cons_append_iff]
          exact ⟨fun hm => ⟨hxy, hm⟩, fun hp => hp.2⟩
        · rw [if_neg (fun hh : (PyResult.ok x : PyResult Char) = .ok y => by
            injection hh with hh'
            exact hxy hh')]
          rw [eq_comm, decide_eq_false_iff_not]
          intro hpal
          rw [pal_cons_append_iff] at hpal
          exact hxy hpal.1

theorem palLoopSafe_drep : ∀ (n : Nat) (l : List Char) (d : DictDeque Char),
    DRep d l → l.length ≤ n → palLoopSafe n d = true := by
  intro n
  induction n with
  | zero =>
    intro l d _ _
    rfl
  | succ n ih =>
    intro l d h hle
    cases l with
    | nil =>
      have hsz : d.size = 0 := h.size_eq
      simp [palLoopSafe, hsz]
    | cons x t =>
      rcases List.eq_nil_or_concat t with rfl | ⟨m, y, rfl⟩
      · have hsz : d.size = 1 := h.size_eq
        simp [palLoopSafe, hsz]
      · rw [List.concat_eq_append] at h hle
        have hsz : d.size > 1 := by
          rw [h.size_eq]
          simp only [List.length_cons, List.length_append, List.length_nil]
          omega
        have hpf : d.peekFront = .ok x := drep_peekFront h
        have hpr : d.peekRear = .ok y := by
          rw [← List.cons_append] at h
          exact drep_peekRear h
        rcases hrf : d.removeFront with ⟨r1, d1⟩
        have hd1 := drep_removeFront h
        rw [hrf] at hd1
        have hr1 : r1 = .ok (some x) := hd1.1
        have hdd1 : DRep d1 (m ++ [y]) := hd1.2
        subst hr1
        rcases hrr : d1.removeRear with ⟨r2, d2⟩
        have hd2 := drep_removeRear hdd1
        rw [hrr] at hd2
        have hr2 : r2 = .ok (some y) := hd2.1
        have hdd2 : DRep d2 m := hd2.2
        subst hr2
        have hs1 : decide (1 ≤ d1.size) = true := by
          rw [hdd1.size_eq]
          simp
        have hlen : m.length ≤ n := by
          simp only [List.length_cons, List.length_append, List.length_nil] at hle
          omega
        rw [palLoopSafe, if_pos hsz, hpf, hpr]
        dsimp only
        by_cases hxy : x = y
        · rw [if_pos hxy]
          simp only [hrf, hrr, hs1, Bool.true_and]
          exact ih m d2 hdd2 hlen
        · rw [if_neg hxy]

/-! ## Normalizer -/

theorem cleanse_foldl (w : List Char) :
    ∀ acc : List Char,
      w.foldl
        (fun cleaned c =>
          if c ∈ pyWhitespace ∨ c ∈ pyPunctuation then cleaned
          else cleaned ++ [c.toLower])
        acc =
      acc ++ (w.filter
        (fun c => ¬(c ∈ pyWhitespace ∨ c ∈ pyPunctuation))).map Char.toLower := by
  induction w with
  | nil =>
    intro acc
    simp
  | cons c w ih =>
    intro acc
    by_cases hc : c ∈ pyWhitespace ∨ c ∈ pyPunctuation
    · simp only [List.foldl_cons, if_pos hc, List.filter_cons]
      rw [ih]
      simp [hc]
    · simp only [List.foldl_cons, if_neg hc, List.filter_cons]
      rw [ih]
      simp [hc]

/-! ## The claims -/

/-- C1 (code_bug evidence): on any deque state with `size() == 0`, both
`removeFront` and `removeRear` return Python `None` (`.ok none`) with the
state unchanged — no `EmptyCollection`/exception is raised, contradicting
the claim that emptiness is signalled to the caller rather than being
converted to a placeholder return value. -/
theorem claim_C1 (d : DictDeque α) (h : d.size = 0) :
    d.removeFront = (.ok none, d) ∧ d.removeRear = (.ok none, d) := by
  have hitems : d.items = [] := List.length_eq_zero.mp h
  have hempty : d.isEmpty = true := by
    rw [DictDeque.isEmpty, hitems]
    rfl
  constructor
  · rw [DictDeque.removeFront, hempty]
    simp
  · rw [DictDeque.removeRear, hempty]
    simp

theorem claim_C1_witness :
    (DictDeque.empty : DictDeque Char).size = 0 ∧
    (DictDeque.empty : DictDeque Char).removeFront = (.ok none, DictDeque.empty) ∧
    (DictDeque.empty : DictDeque Char).removeRear = (.ok none, DictDeque.empty) :=
  ⟨rfl, (claim_C1 DictDeque.empty rfl).1, (claim_C1 DictDeque.empty rfl).2⟩

/-- C2: on any deque state with `size() == 0`, `peekFront` and `peekRear`
fail with a raised error (`KeyError` on the missing boundary key, the
code's realization of `EmptyCollection`) and never return a default
value. -/
theorem claim_C2 (d : DictDeque α) (h : d.size = 0) :
    d.peekFront = .err ∧ d.peekRear = .err := by
  have hitems : d.items = [] := List.length_eq_zero.mp h
  constructor
  · rw [DictDeque.peekFront, hitems]
    rfl
  · rw [DictDeque.peekRear, hitems]
    rfl

theorem claim_C2_witness :
    (DictDeque.empty : DictDeque Char).size = 0 ∧
    (DictDeque.empty : DictDeque Char).peekFront = .err ∧
    (DictDeque.empty : DictDeque Char).peekRear = .err :=
  ⟨rfl, (claim_C2 DictDeque.empty rfl).1, (claim_C2 DictDeque.empty rfl).2⟩

/-- C3: in every state reachable from the empty constructor by any
sequence of `addFront`/`addRear`/`removeFront`/`removeRear` operations,
the occupied keys form exactly the contiguous range `[low+1, high-1]`,
`size() == high - low - 1`, and `isEmpty()` holds iff `high - low == 1`. -/
theorem claim_C3 (ops : List (Op α)) :
    (∀ k : Int, (dlookup (runD ops).items k).isSome = true ↔
      ((runD ops).low + 1 ≤ k ∧ k ≤ (runD ops).high - 1)) ∧
    (((runD ops).size : Int) = (runD ops).high - (runD ops).low - 1) ∧
    ((runD ops).isEmpty = true ↔ (runD ops).high - (runD ops).low = 1) := by
  obtain ⟨l, h⟩ : ∃ l, DRep (runD (α := α) ops) l :=
    ⟨listRun [] ops, drep_run ops DictDeque.empty [] drep_empty⟩
  refine ⟨?_, ?_, ?_⟩
  · intro k
    constructor
    · intro hk
      rcases Int.lt_or_le (runD (α := α) ops).low k with hgt | hle
      · have hi : k = (runD (α := α) ops).low + 1 + ((k - (runD ops).low - 1).toNat : Int) := by
          rw [Int.toNat_of_nonneg (by omega)]
          ring
        rw [hi, h.look] at hk
        have hlt : (k - (runD (α := α) ops).low - 1).toNat < l.length := by
          by_contra hc
          rw [List.getElem?_eq_none (Nat.le_of_not_lt hc)] at hk
          simp at hk
        have := h.hi
        constructor
        · omega
        · rw [this]
          have hcast : ((k - (runD (α := α) ops).low - 1).toNat : Int) =
              k - (runD ops).low - 1 := Int.toNat_of_nonneg (by omega)
          omega
      · rw [h.lo k hle] at hk
        simp at hk
    · rintro ⟨h1, h2⟩
      have hi : k = (runD (α := α) ops).low + 1 + ((k - (runD ops).low - 1).toNat : Int) := by
        rw [Int.toNat_of_nonneg (by omega)]
        ring
      rw [hi, h.look]
      have hcast : ((k - (runD (α := α) ops).low - 1).toNat : Int) =
          k - (runD ops).low - 1 := Int.toNat_of_nonneg (by omega)
      have hlt : (k - (runD (α := α) ops).low - 1).toNat < l.length := by
        have := h.hi
        omega
      rw [List.getElem?_eq_getElem hlt]
      rfl
  · rw [h.size_eq, h.hi]
    ring
  · rw [h.isEmpty_eq, List.isEmpty_eq_true, h.hi]
    constructor
    · rintro rfl
      simp
    · intro hh
      have : l.length = 0 := by omega
      exact List.length_eq_zero.mp this

/-- C4: the deque-based palindrome check agrees with exact-reversal
equality on every character string, and in particular accepts
"racecar", "" and "a" and rejects "hello" and "ab". -/
theorem claim_C4 :
    (∀ s : List Char, palindromeDequeCheck s = decide (s = s.reverse)) ∧
    palindromeDequeCheck "racecar".toList = true ∧
    palindromeDequeCheck "".toList = true ∧
    palindromeDequeCheck "a".toList = true ∧
    palindromeDequeCheck "hello".toList = false ∧
    palindromeDequeCheck "ab".toList = false := by
  have hmain : ∀ s : List Char, palindromeDequeCheck s = decide (s = s.reverse) := by
    intro s
    have hrep : DRep (s.foldl (fun d c => d.addRear c) DictDeque.empty) s := by
      simpa using foldl_addRear_drep s [] DictDeque.empty drep_empty
    simp only [palindromeDequeCheck]
    exact palLoop_drep _ s _ hrep (le_of_eq hrep.size_eq.symm)
  exact ⟨hmain, by decide, by decide, by decide, by decide, by decide⟩

/-- C5: starting both deques empty, any operation sequence that never
removes from an empty structure makes the baseline `Deque` and the
`DictDeque` return the same value from every remove call, and they agree
on `size()` and `isEmpty()` after every step (i.e. after every prefix of
the sequence). -/
theorem claim_C5 (ops : List (Op α)) (h : noUnderflow [] ops = true) :
    ((DictDeque.empty.run ops).2 =
      ((Deque.empty.run ops).2).map (PyResult.map some)) ∧
    ∀ n : Nat,
      ((DictDeque.empty.run (ops.take n)).1).size =
        ((Deque.empty.run (ops.take n)).1).size ∧
      ((DictDeque.empty.run (ops.take n)).1).isEmpty =
        ((Deque.empty.run (ops.take n)).1).isEmpty := by
  constructor
  · exact (run_sim ops DictDeque.empty Deque.empty [] drep_empty rfl h).1
  · intro n
    have hn := noUnderflow_take n ops [] h
    have hsim := run_sim (ops.take n) DictDeque.empty Deque.empty [] drep_empty rfl hn
    constructor
    · rw [hsim.2.1.size_eq, Deque.size, hsim.2.2, List.length_reverse]
    · rw [hsim.2.1.isEmpty_eq, Deque.isEmpty, hsim.2.2]
      cases listRun ([] : List α) (ops.take n) <;> simp

theorem claim_C5_witness :
    (noUnderflow ([] : List Nat) [Op.addF 1, Op.addR 2, Op.remF, Op.remR] = true) ∧
    ((DictDeque.empty.run [Op.addF 1, Op.addR 2, Op.remF, Op.remR]).2 =
      ((Deque.empty.run [Op.addF 1, Op.addR 2, Op.remF, Op.remR]).2).map
        (PyResult.map some)) ∧
    ((DictDeque.empty.run ([Op.addF (1 : Nat), Op.addR 2, Op.remF, Op.remR].take 4)).1).size =
      ((Deque.empty.run ([Op.addF (1 : Nat), Op.addR 2, Op.remF, Op.remR].take 4)).1).size :=
  ⟨by decide, (claim_C5 _ (by decide)).1, ((claim_C5 _ (by decide)).2 4).1⟩

/-- C6: for a deque built from empty by any interleaving of `addFront`
and `addRear`, draining by repeated `removeFront` yields the reverse of
draining by repeated `removeRear` from the same state. -/
theorem claim_C6 (ops : List (Op α)) (h : addsOnly ops = true) :
    drainFront (runD ops).size (runD ops) =
      (drainRear (runD ops).size (runD ops)).reverse := by
  obtain ⟨l, hrep⟩ : ∃ l, DRep (runD (α := α) ops) l :=
    ⟨listRun [] ops, drep_run ops DictDeque.empty [] drep_empty⟩
  rw [hrep.size_eq, drainFront_drep l _ hrep, drainRear_drep l _ hrep,
    List.reverse_reverse]

theorem claim_C6_witness :
    addsOnly [Op.addF 'a', Op.addR 'b', Op.addF 'c'] = true ∧
    drainFront (runD [Op.addF 'a', Op.addR 'b', Op.addF 'c']).size
        (runD [Op.addF 'a', Op.addR 'b', Op.addF 'c']) =
      (drainRear (runD [Op.addF 'a', Op.addR 'b', Op.addF 'c']).size
        (runD [Op.addF 'a', Op.addR 'b', Op.addF 'c'])).reverse :=
  ⟨by decide, claim_C6 _ (by decide)⟩

/-- C7: on every reachable deque state, `addFront(x)` followed by
`removeFront()` returns exactly `x` and leaves `size()` unchanged from
before the pair. -/
theorem claim_C7 (d : DictDeque α) (x : α) (h : d.Reachable) :
    ((d.addFront x).removeFront).1 = .ok (some x) ∧
    ((d.addFront x).removeFront).2.size = d.size := by
  obtain ⟨l, hrep⟩ := reachable_drep h
  have h1 := drep_removeFront (drep_addFront x hrep)
  refine ⟨h1.1, ?_⟩
  rw [h1.2.size_eq, hrep.size_eq]

theorem claim_C7_witness :
    (DictDeque.empty : DictDeque Char).Reachable ∧
    (((DictDeque.empty : DictDeque Char).addFront 'z').removeFront).1 =
      .ok (some 'z') ∧
    (((DictDeque.empty : DictDeque Char).addFront 'z').removeFront).2.size =
      (DictDeque.empty : DictDeque Char).size :=
  ⟨⟨[], rfl⟩, (claim_C7 DictDeque.empty 'z' ⟨[], rfl⟩).1,
    (claim_C7 DictDeque.empty 'z' ⟨[], rfl⟩).2⟩

/-- C8: `cleanse` keeps exactly the input characters that are neither
Python whitespace nor Python punctuation, lowercases each survivor, and
preserves their relative order; it is total, maps the example
"hey  th!ere?" to "heythere", and maps empty input to empty output. -/
theorem claim_C8 :
    (∀ w : List Char, cleanse w =
      (w.filter
        (fun c => ¬(c ∈ pyWhitespace ∨ c ∈ pyPunctuation))).map Char.toLower) ∧
    cleanse "hey  th!ere?".toList = "heythere".toList ∧
    cleanse [] = [] := by
  refine ⟨?_, by decide, rfl⟩
  intro w
  rw [cleanse, cleanse_foldl]
  rfl

/-- C9: on the token list ["racecar", "Level!", "hello", "a"], the
normalize / length-filter / palindrome-count pipeline produces exactly
the frequency mapping racecar ↦ 1, level ↦ 1. -/
theorem claim_C9 :
    findPalindromesFrom
      ["racecar".toList, "Level!".toList, "hello".toList, "a".toList] =
      [("racecar".toList, 1), ("level".toList, 1)] := by
  decide

/-- C10 counterexample: running the palindrome check on "aa", the single
`removeRear` call happens when the deque holds exactly one element
(`palRearSizes` records the size at each `removeRear` call), so it is
not the case that every `removeRear` during the check occurs with at
least two elements present. -/
theorem claim_C10_cex :
    palRearSizes ('a' :: 'a' :: []) = [1] ∧ ¬ (2 ≤ 1) := by
  decide

/-- C10 (amended): during `palindromeDequeCheck` on any input, every
`peekFront`/`peekRear`/`removeFront` call occurs under the `size() > 1`
loop guard, every `removeRear` call occurs with at least one element
still present, and every one of those dict accesses succeeds — the
checker `palLoopSafe` verifies the guard, both peeks, both removals and
the `1 ≤ size` bound at each iteration, so the missing-key / empty
branch of those operations is unreachable from the palindrome checker. -/
theorem claim_C10 (s : List Char) : palSafe s = true := by
  have hrep : DRep (s.foldl (fun d c => d.addRear c) DictDeque.empty) s := by
    simpa using foldl_addRear_drep s [] DictDeque.empty drep_empty
  simp only [palSafe]
  exact palLoopSafe_drep _ s _ hrep (le_of_eq hrep.size_eq.symm)
